import Mathlib

/-!
# Verification of the evaluation core of the financial-onboarding pipeline

This file gives a shallow embedding, in Lean 4, of the evaluation/scoring
component of the repository (module `core/evaluation_generator.py`, plus the
duplicated missing-field recursion in `core/conversation_generator.py`), and
proves or refutes the specification claims about it.

Conventions of the embedding:
* JSON-like records are the inductive type `J` (maps are association lists in
  insertion order, matching Python's insertion-ordered `dict`).
* Python exceptions raised by the evaluation code are modelled with
  `Except PyErr`; code that cannot raise is a plain function.
* The external semantic-equivalence oracle (an OpenAI call in
  `Evaluator._semantic_match`) is a parameter `orc : String → String → Bool`;
  the `try/except` around the call returns `False` on any failure, so a total
  boolean function captures every possible observable behaviour of the call.
* Python's in-place mutation of the argument of `_find_missing_fields` is
  modelled by an explicit wrapper that returns, next to the function's result,
  the value the *caller's* variable denotes after the call (the original value
  when the function deep-copied, the stripped value when it mutated in place).
-/

/-- JSON-like values: the records flowing through the pipeline.
Python `dict`s are insertion-ordered association lists; numbers are modelled
as integers (no claim depends on numeric arithmetic, only on the dynamic
type of a leaf). -/
inductive J where
  | null : J
  | b : Bool → J
  | num : Int → J
  | str : String → J
  | arr : List J → J
  | obj : List (String × J) → J
deriving Repr, Inhabited

/-- The constant `MISSING_FIELD` from `utils/__init__.py`. -/
def MISSING_FIELD : String := "MISSING INFORMATION"

/-- Python `needle in haystack` for strings: substring containment. -/
def containsSub (needle hay : String) : Bool :=
  decide (needle.data <:+: hay.data)

/-- Errors the embedded code can raise. -/
inductive PyErr where
  | typeError : PyErr
deriving DecidableEq, Repr

mutual

/-- Python `repr` of a JSON-shaped value (element rendering used by
`str` on containers).  Quote-escaping inside string reprs is not modelled;
no claim depends on the repr of a string that contains a quote. -/
def pyRepr : J → String
  | .null => "None"
  | .b true => "True"
  | .b false => "False"
  | .num n => toString n
  | .str s => "'" ++ s ++ "'"
  | .arr xs => "[" ++ pyReprArr xs ++ "]"
  | .obj kvs => "\x7b" ++ pyReprObj kvs ++ "\x7d"

/-- Comma-separated reprs of list elements. -/
def pyReprArr : List J → String
  | [] => ""
  | [x] => pyRepr x
  | x :: y :: xs => pyRepr x ++ ", " ++ pyReprArr (y :: xs)

/-- Comma-separated `key: value` reprs of dict entries. -/
def pyReprObj : List (String × J) → String
  | [] => ""
  | [(k, v)] => "'" ++ k ++ "': " ++ pyRepr v
  | (k, v) :: e :: kvs => "'" ++ k ++ "': " ++ pyRepr v ++ ", " ++ pyReprObj (e :: kvs)

end

/-- Python `str()` of a JSON-shaped value. -/
def pyStr : J → String
  | .str s => s
  | v => pyRepr v

/-- Python `v is None`. -/
def J.isNull : J → Bool
  | .null => true
  | _ => false

/-- Python `v == needle` where `needle` is a string: equal strings match,
any non-string value compares unequal (no error). -/
def pyEqStr (needle : String) : J → Bool
  | .str s => needle == s
  | _ => false

/-- Python `needle in hay` where `needle` is a string: substring test on
strings, element membership (by `==`) on lists, key membership on dicts,
and a `TypeError` on `None`, booleans and numbers. -/
def pyIn (needle : String) (hay : J) : Except PyErr Bool :=
  match hay with
  | .str s => .ok (containsSub needle s)
  | .arr xs => .ok (xs.any (pyEqStr needle))
  | .obj kvs => .ok (decide (needle ∈ kvs.map Prod.fst))
  | _ => .error .typeError

/-- Python `str(v).lower().strip()` applied to an already-stringified
value: ASCII lowercasing followed by trimming leading and trailing
whitespace (modelled structurally over the character list so that it
computes in proofs; Unicode-specific case folding is not modelled). -/
def pyLowerStrip (s : String) : String :=
  ⟨(((s.data.map Char.toLower).dropWhile Char.isWhitespace).reverse.dropWhile
      Char.isWhitespace).reverse⟩

/-- Embeds `Evaluator._semantic_match`.  The OpenAI call is the parameter `orc`;
the surrounding `try/except` returns `False` on any API failure, so every
observable behaviour of the call is some total `orc`.  The guard returns
`False`, without consulting `orc`, when the lengths differ by more than 20
or either string is shorter than 3 characters. -/
def semanticMatch (orc : String → String → Bool) (s1 s2 : String) : Bool :=
  if 20 < ((s1.length : Int) - (s2.length : Int)).natAbs
      ∨ min s1.length s2.length < 3 then
    false
  else
    orc s1 s2

/-- Embeds `Evaluator._compare_values`.  Mirrors the source line by line: the two
`None` checks, then `MISSING_FIELD in value1` / `... in value2` (which
raise `TypeError` on number and boolean operands — both operands are
evaluated before either `if` outcome is taken, in the source as here),
then lowercased/stripped exact equality, then the semantic fallback. -/
def compareValues (orc : String → String → Bool) (v1 v2 : J) : Except PyErr Bool :=
  if v1.isNull && v2.isNull then .ok true
  else if v1.isNull || v2.isNull then .ok false
  else
    match pyIn MISSING_FIELD v1 with
    | .error e => .error e
    | .ok c1 =>
        match pyIn MISSING_FIELD v2 with
        | .error e => .error e
        | .ok c2 =>
            if c1 && c2 then .ok true
            else if c1 || c2 then .ok false
            else
              let s1 := pyLowerStrip (pyStr v1)
              let s2 := pyLowerStrip (pyStr v2)
              if s1 = s2 then .ok true
              else .ok (semanticMatch orc s1 s2)

/-- Canonical path of a map key below `parent`
(`f"{parent_key}{sep}{k}" if parent_key else k`, with `sep = "."`). -/
def newKey (parent k : String) : String :=
  if parent = "" then k else parent ++ "." ++ k

/-- Canonical path of a sequence index below `nk` (`f"{new_key}[{i}]"`). -/
def idxKey (nk : String) (i : Nat) : String :=
  nk ++ "[" ++ toString i ++ "]"

mutual

/-- The item list built by `Evaluator._flatten_dict` (before the final
`dict(items)`): dict values recurse under `parent.key`, list items recurse
under `parent.key[i]` when they are dicts and are appended as leaves
otherwise, every other value is a leaf. -/
def flattenItems : List (String × J) → String → List (String × J)
  | [], _ => []
  | (k, v) :: rest, parent =>
      let nk := newKey parent k
      (match v with
       | .obj e => flattenItems e nk
       | .arr l => flattenList l nk 0
       | x => [(nk, x)]) ++ flattenItems rest parent

/-- The `for i, item in enumerate(v)` loop of `_flatten_dict`, with `i`
the running index. -/
def flattenList : List J → String → Nat → List (String × J)
  | [], _, _ => []
  | item :: rest, nk, i =>
      (match item with
       | .obj e => flattenItems e (idxKey nk i)
       | x => [(idxKey nk i, x)]) ++ flattenList rest nk (i + 1)

end

/-- Python `dict` insertion: replace the value at the first occurrence of
the key, else append the binding. -/
def dictInsert {α : Type} : List (String × α) → String → α → List (String × α)
  | [], k, v => [(k, v)]
  | (l, w) :: rest, k, v =>
      if l = k then (l, v) :: rest else (l, w) :: dictInsert rest k v

/-- Python `dict(items)`: left fold of insertions into an empty dict. -/
def toDict {α : Type} (items : List (String × α)) : List (String × α) :=
  items.foldl (fun acc p => dictInsert acc p.1 p.2) []

/-- Embeds `Evaluator._flatten_dict` (`sep` is always the default `"."` in the
source): the flat canonical-path → value map of a record. -/
def flattenDict (entries : List (String × J)) (parent : String) : List (String × J) :=
  toDict (flattenItems entries parent)

/-- The category assigned to a field result. -/
inductive Cat where
  | present : Cat
  | extra : Cat
  | missing : Cat
deriving DecidableEq, Repr, Inhabited

/-- One entry of `field_results` (the Python field named `match` is called
`matched` here, `match` being a Lean keyword).  `J.null` stands for the
Python `None` the source stores in `ground_truth` / `extracted`. -/
structure FieldResult where
  ground_truth : J
  extracted : J
  matched : Bool
  category : Cat
  error : Option String
deriving Repr, Inhabited

/-- The per-category `{total, matched, accuracy}` block of the metrics. -/
structure CatMetric where
  total : Nat
  matched : Nat
  accuracy : ℚ
deriving DecidableEq, Repr, Inhabited

/-- The metrics dictionary built by `Evaluator._calculate_metrics`.  Python
float arithmetic on these ratios is modelled with exact rationals. -/
structure Metrics where
  overall_accuracy : ℚ
  precision : ℚ
  recall_val : ℚ
  f1_score : ℚ
  true_positives : Nat
  false_positives : Nat
  false_negatives : Nat
  total_fields : Nat
  missing_fields_count : Nat
  cat_present : CatMetric
  cat_extra : CatMetric
  cat_missing : CatMetric
deriving DecidableEq, Repr, Inhabited

/-- The evaluation dictionary returned by `Evaluator._evaluate_data`. -/
structure Evaluation where
  metrics : Metrics
  field_results : List (String × FieldResult)
  missing_fields : List String
deriving Repr, Inhabited

/-- The counters accumulated by the `for field, result in field_results`
loop of `_calculate_metrics`. -/
structure Counters where
  tp : Nat
  fp : Nat
  fn : Nat
  presTot : Nat
  presMat : Nat
  extTot : Nat
  extMat : Nat
  misTot : Nat
  misMat : Nat
deriving DecidableEq, Repr, Inhabited

/-- One iteration of the counting loop of `_calculate_metrics`: bump the
category's `total`/`matched`, then the `if category == "present"`
`elif category == "extra"` chain (`missing_field` error first, then
`is_match`, else false positive; every extra field is a false positive). -/
def countStep (c : Counters) (r : FieldResult) : Counters :=
  let c :=
    match r.category with
    | .present => { c with presTot := c.presTot + 1,
                           presMat := c.presMat + (if r.matched then 1 else 0) }
    | .extra => { c with extTot := c.extTot + 1,
                         extMat := c.extMat + (if r.matched then 1 else 0) }
    | .missing => { c with misTot := c.misTot + 1,
                           misMat := c.misMat + (if r.matched then 1 else 0) }
  match r.category with
  | .present =>
      if r.error = some "missing_field" then { c with fn := c.fn + 1 }
      else if r.matched then { c with tp := c.tp + 1 }
      else { c with fp := c.fp + 1 }
  | .extra => { c with fp := c.fp + 1 }
  | .missing => c

/-- The empty counters the loop starts from. -/
def counters0 : Counters := ⟨0, 0, 0, 0, 0, 0, 0, 0, 0⟩

/-- The `matched/total if total > 0 else 0` per-category ratio. -/
def catMetricOf (tot mat : Nat) : CatMetric :=
  ⟨tot, mat, if 0 < tot then (mat : ℚ) / (tot : ℚ) else 0⟩

/-- Embeds `Evaluator._calculate_metrics`: fold the counting loop over the field
results and assemble the metrics dictionary, every ratio defaulting to 0
on a zero denominator. -/
def calculateMetrics (fieldResults : List (String × FieldResult))
    (missingFields : List String) : Metrics :=
  let c := fieldResults.foldl (fun c p => countStep c p.2) counters0
  let precision : ℚ :=
    if 0 < c.tp + c.fp then (c.tp : ℚ) / ((c.tp : ℚ) + (c.fp : ℚ)) else 0
  let recall_val : ℚ :=
    if 0 < c.tp + c.fn then (c.tp : ℚ) / ((c.tp : ℚ) + (c.fn : ℚ)) else 0
  let f1 : ℚ :=
    if 0 < precision + recall_val then 2 * (precision * recall_val) / (precision + recall_val) else 0
  let accuracy : ℚ :=
    if 0 < c.tp + c.fp + c.fn then (c.tp : ℚ) / ((c.tp : ℚ) + (c.fp : ℚ) + (c.fn : ℚ)) else 0
  { overall_accuracy := accuracy
    precision := precision
    recall_val := recall_val
    f1_score := f1
    true_positives := c.tp
    false_positives := c.fp
    false_negatives := c.fn
    total_fields := c.presTot + c.extTot + c.misTot
    missing_fields_count := missingFields.length
    cat_present := catMetricOf c.presTot c.presMat
    cat_extra := catMetricOf c.extTot c.extMat
    cat_missing := catMetricOf c.misTot c.misMat }

/-- The first loop of `_evaluate_data`: for every `(field, truth_value)` of
the flat ground truth, look the field up in the flat extracted map; when
found, compare the two values (which can raise), category `present`; when
absent, a `present` result with `extracted = None`, `match = False` and
error tag `missing_field`. -/
def buildPresent (orc : String → String → Bool)
    (fgt fext : List (String × J)) : Except PyErr (List (String × FieldResult)) :=
  match fgt with
  | [] => .ok []
  | (field, tv) :: rest =>
      match fext.lookup field with
      | some ev =>
          match compareValues orc tv ev with
          | .error e => .error e
          | .ok m =>
              match buildPresent orc rest fext with
              | .error e => .error e
              | .ok rs => .ok ((field, ⟨tv, ev, m, .present, none⟩) :: rs)
      | none =>
          match buildPresent orc rest fext with
          | .error e => .error e
          | .ok rs =>
              .ok ((field, ⟨tv, .null, false, .present, some "missing_field"⟩) :: rs)

/-- The second loop of `_evaluate_data`: every field of the flat extracted
map that is absent from the flat ground truth yields a `missing` result
when its value *equals* `MISSING_FIELD`, an `extra` result otherwise. -/
def buildExtra (fext fgt : List (String × J)) : List (String × FieldResult) :=
  fext.filterMap fun p =>
    if (fgt.lookup p.1).isSome then none
    else if pyEqStr MISSING_FIELD p.2 then
      some (p.1, ⟨J.str MISSING_FIELD, p.2, true, .missing, none⟩)
    else
      some (p.1, ⟨J.null, p.2, false, .extra, some "extra_field"⟩)

/-- Embeds `Evaluator._evaluate_data`: flatten both records, run both
field-classification loops (propagating a comparison `TypeError`), compute
the metrics and assemble the evaluation dictionary. -/
def evaluateData (orc : String → String → Bool)
    (groundTruth extracted : List (String × J))
    (missingFields : List String) : Except PyErr Evaluation :=
  let fgt := flattenDict groundTruth ""
  let fext := flattenDict extracted ""
  match buildPresent orc fgt fext with
  | .error e => .error e
  | .ok rs1 =>
      let fieldResults := rs1 ++ buildExtra fext fgt
      .ok { metrics := calculateMetrics fieldResults missingFields
            field_results := fieldResults
            missing_fields := missingFields }

/-- Python `del data[key]` on a dict: remove the (unique) binding of `k`. -/
def delKey {α : Type} : List (String × α) → String → List (String × α)
  | [], _ => []
  | (l, w) :: rest, k => if l = k then rest else (l, w) :: delKey rest k

/-- The loop `for key in keys_to_delete: del data[key]`. -/
def delKeys {α : Type} (entries : List (String × α)) (ks : List String) :
    List (String × α) :=
  ks.foldl delKey entries

/-- The loop `for index in sorted(indices_to_delete, reverse=True): del data[index]`.
The indices were collected in ascending iteration order, so the
descending-sorted order is their reverse. -/
def deleteDesc (l : List J) (idxAsc : List Nat) : List J :=
  idxAsc.reverse.foldl (fun acc i => acc.eraseIdx i) l

mutual

/-- The dict branch of `Evaluator._find_missing_fields`: process every
entry (recursing into containers, recording scalar `MISSING_FIELD` leaves
and marking their keys for deletion), then delete the marked keys.
Returns (entries after the call, missing paths, —) with the marked keys
already removed. -/
def fmfObj : List (String × J) → String → List String →
    List (String × J) × List String
  | entries, path, ms =>
      let r := fmfEntries entries path ms
      (delKeys r.1 r.2.2, r.2.1)

/-- The list branch of `Evaluator._find_missing_fields`: process every
item, then delete the marked indices in descending order. -/
def fmfArr : List J → String → List String → List J × List String
  | items, path, ms =>
      let r := fmfList items path 0 ms
      (deleteDesc r.1 r.2.2, r.2.1)

/-- The `for key, value in data.items()` loop of `_find_missing_fields`:
returns the processed entries (markers still in place), the grown
missing-path list, and `keys_to_delete`. -/
def fmfEntries : List (String × J) → String → List String →
    List (String × J) × List String × List String
  | [], _, ms => ([], ms, [])
  | (k, v) :: rest, path, ms =>
      let cp := newKey path k
      match v with
      | .obj e =>
          let rv := fmfObj e cp ms
          let rr := fmfEntries rest path rv.2
          ((k, J.obj rv.1) :: rr.1, rr.2.1, rr.2.2)
      | .arr l =>
          let rv := fmfArr l cp ms
          let rr := fmfEntries rest path rv.2
          ((k, J.arr rv.1) :: rr.1, rr.2.1, rr.2.2)
      | x =>
          if pyEqStr MISSING_FIELD x then
            let rr := fmfEntries rest path (ms ++ [cp])
            ((k, x) :: rr.1, rr.2.1, k :: rr.2.2)
          else
            let rr := fmfEntries rest path ms
            ((k, x) :: rr.1, rr.2.1, rr.2.2)

/-- The `for i, item in enumerate(data)` loop of `_find_missing_fields`:
returns the processed items (markers still in place), the grown
missing-path list, and `indices_to_delete` in ascending order. -/
def fmfList : List J → String → Nat → List String →
    List J × List String × List Nat
  | [], _, _, ms => ([], ms, [])
  | item :: rest, path, i, ms =>
      let cp := idxKey path i
      match item with
      | .obj e =>
          let rv := fmfObj e cp ms
          let rr := fmfList rest path (i + 1) rv.2
          (J.obj rv.1 :: rr.1, rr.2.1, rr.2.2)
      | .arr l =>
          let rv := fmfArr l cp ms
          let rr := fmfList rest path (i + 1) rv.2
          (J.arr rv.1 :: rr.1, rr.2.1, rr.2.2)
      | x =>
          if pyEqStr MISSING_FIELD x then
            let rr := fmfList rest path (i + 1) (ms ++ [cp])
            (x :: rr.1, rr.2.1, i :: rr.2.2)
          else
            let rr := fmfList rest path (i + 1) ms
            (x :: rr.1, rr.2.1, rr.2.2)

end

/-- Embeds `Evaluator._find_missing_fields` as a value transformer: the pair
(value of `data` the function returns, final `missing_fields` list). -/
def fmfJ : J → String → List String → J × List String
  | .obj entries, path, ms =>
      let r := fmfObj entries path ms
      (J.obj r.1, r.2)
  | .arr items, path, ms =>
      let r := fmfArr items path ms
      (J.arr r.1, r.2)
  | x, _, ms => (x, ms)

/-- A call `self._find_missing_fields(data, missing_fields=marg)` together
with its aliasing semantics.  Returns `(result, missing, after)` where
`after` is the value the *caller's* `data` variable denotes once the call
returns: when `marg` is `None` the function deep-copies first, so the
caller keeps the original; when a list is passed (as
`Evaluator.generate` does, with `[]`), no copy is made and the dict is
stripped in place, so the caller is left with the stripped value. -/
def findMissingFieldsCall (data : J) (marg : Option (List String)) :
    J × List String × J :=
  match marg with
  | none =>
      let r := fmfJ data "" []
      (r.1, r.2, data)
  | some ms0 =>
      let r := fmfJ data "" ms0
      (r.1, r.2, r.1)

/-- The running totals of `EvaluationAggregator.generate`
(`metrics_sum`); the Python key `"recall"` is the field `recall_val`
(`recall` is reserved in this development's proof environment). -/
structure MSums where
  overall_accuracy : ℚ
  precision : ℚ
  recall_val : ℚ
  f1_score : ℚ
deriving DecidableEq, Repr, Inhabited

/-- The aggregated result assembled by `EvaluationAggregator.generate`
(the inert `experiment` name field is omitted). -/
structure AggResult where
  total_conversations : Nat
  aggregated_metrics : List (String × ℚ)
deriving DecidableEq, Repr, Inhabited

/-- Python `metrics[key] if key in metrics` — a missing key contributes nothing
to the running sum. -/
def getQ (m : List (String × ℚ)) (k : String) : ℚ :=
  match m.lookup k with
  | some q => q
  | none => 0

/-- One iteration of the aggregation loop: a run whose evaluation file
failed to load (`FileNotFoundError` / `JSONDecodeError`, the `.error`
case) is skipped; a loaded run is counted and summed only when its
metrics mapping is non-empty (`if metrics:`). -/
def aggStep (acc : Nat × MSums) (c : Except Unit (List (String × ℚ))) :
    Nat × MSums :=
  match c with
  | .error _ => acc
  | .ok metrics =>
      if metrics.isEmpty then acc
      else
        (acc.1 + 1,
         { overall_accuracy := acc.2.overall_accuracy + getQ metrics "overall_accuracy"
           precision := acc.2.precision + getQ metrics "precision"
           recall_val := acc.2.recall_val + getQ metrics "recall"
           f1_score := acc.2.f1_score + getQ metrics "f1_score" })

/-- Embeds `EvaluationAggregator.generate`.  Each element of `convs` is the
outcome of loading one conversation's evaluation metrics (`.error` for a
missing/unparseable file, `.ok m` for the `evaluation.get('metrics', {})`
mapping).  With no conversations at all the method prints and returns
`None`; otherwise it folds the loop and divides each sum by
`total_conversations` when that count is positive, else reports an empty
mapping. -/
def aggregate (convs : List (Except Unit (List (String × ℚ)))) :
    Option AggResult :=
  if convs.isEmpty then none
  else
    let r := convs.foldl aggStep (0, ⟨0, 0, 0, 0⟩)
    some
      { total_conversations := r.1
        aggregated_metrics :=
          if 0 < r.1 then
            [("overall_accuracy", r.2.overall_accuracy / (r.1 : ℚ)),
             ("precision", r.2.precision / (r.1 : ℚ)),
             ("recall", r.2.recall_val / (r.1 : ℚ)),
             ("f1_score", r.2.f1_score / (r.1 : ℚ))]
          else []
      }

mutual

/-- No leaf of the value equals the `MISSING_FIELD` marker. -/
def noMarkerJ : J → Bool
  | .obj entries => noMarkerObj entries
  | .arr items => noMarkerArr items
  | x => !(pyEqStr MISSING_FIELD x)

/-- No leaf below any entry equals the marker. -/
def noMarkerObj : List (String × J) → Bool
  | [] => true
  | (_, v) :: rest => noMarkerJ v && noMarkerObj rest

/-- No leaf below any item equals the marker. -/
def noMarkerArr : List J → Bool
  | [] => true
  | x :: rest => noMarkerJ x && noMarkerArr rest

end
/-- A scalar (non-container) value. -/
def isScalarJ : J → Bool
  | .obj _ => false
  | .arr _ => false
  | _ => true

/-- The 0-based positions of the elements equal to the marker. -/
def markerPos : List J → List Nat
  | [] => []
  | x :: rest =>
      (if pyEqStr MISSING_FIELD x then [0] else []) ++ (markerPos rest).map (· + 1)
/-- The items `_flatten_dict` contributes for one dict entry `(k, v)`
whose canonical path is `nk`: dict values recurse, list values run the
indexed loop, anything else is a leaf. -/
def entryContrib (v : J) (nk : String) : List (String × J) :=
  match v with
  | .obj e => flattenItems e nk
  | .arr l => flattenList l nk 0
  | x => [(nk, x)]

/-- The items the list loop contributes for one element at canonical
path `nk'`: dict elements recurse, every other element is a leaf. -/
def listContrib (item : J) (nk' : String) : List (String × J) :=
  match item with
  | .obj e => flattenItems e nk'
  | x => [(nk', x)]
/-- Spec-side predicate: a true positive is a `present` result with no
`missing_field` error tag whose match verdict is true. -/
def tpPred (r : FieldResult) : Bool :=
  decide (r.category = Cat.present) && !(decide (r.error = some "missing_field")) && r.matched

/-- Spec-side predicate: the present-category false positives are the
`present` results with `match = false` and no `missing_field` error tag. -/
def fpPresentPred (r : FieldResult) : Bool :=
  decide (r.category = Cat.present) && !(decide (r.error = some "missing_field")) && !r.matched

/-- Spec-side predicate: a false negative is a `present` result carrying
the `missing_field` error tag. -/
def fnPred (r : FieldResult) : Bool :=
  decide (r.category = Cat.present) && decide (r.error = some "missing_field")
/-- The runs the aggregation loop actually counts: those whose
evaluation file loaded *and* whose metrics mapping is non-empty. -/
def loadedNonempty (convs : List (Except Unit (List (String × ℚ)))) :
    List (List (String × ℚ)) :=
  convs.filterMap fun c =>
    match c with
    | .error _ => none
    | .ok m => if m.isEmpty then none else some m
/-- The field results of a concrete successful evaluation: ground truth
`{"a": "x"}` against extracted `{"a": "x", "b": MISSING_FIELD}` with an
always-`False` oracle. -/
def c1results : List (String × FieldResult) :=
  [("a", ⟨J.str "x", J.str "x", true, .present, none⟩),
   ("b", ⟨J.str MISSING_FIELD, J.str MISSING_FIELD, true, .missing, none⟩)]

/-- The evaluation produced on the `c1results` inputs. -/
def c1ev : Evaluation :=
  { metrics := calculateMetrics c1results []
    field_results := c1results
    missing_fields := [] }
/-- Field results of the concrete C4 instance: ground truth `{}` against
extracted `{"a": MISSING_FIELD, "b": 3}`. -/
def c4results : List (String × FieldResult) :=
  [("a", ⟨J.str MISSING_FIELD, J.str MISSING_FIELD, true, Cat.missing, none⟩),
   ("b", ⟨J.null, J.num 3, false, Cat.extra, some "extra_field"⟩)]

/-- The evaluation produced on the C4 witness inputs. -/
def c4ev : Evaluation :=
  { metrics := calculateMetrics c4results []
    field_results := c4results
    missing_fields := [] }

/-! ## Association-list and `toDict` lemmas -/

theorem lookup_eq_none_iff {α : Type} (l : List (String × α)) (k : String) :
    l.lookup k = none ↔ k ∉ l.map Prod.fst := by
  induction l with
  | nil => simp [List.lookup]
  | cons p rest ih =>
      obtain ⟨k', v⟩ := p
      by_cases h : k = k'
      · subst h; simp [List.lookup]
      · simp [List.lookup, beq_false_of_ne h, ih, Ne.symm h, h]

theorem lookup_isSome_iff {α : Type} (l : List (String × α)) (k : String) :
    (l.lookup k).isSome = true ↔ k ∈ l.map Prod.fst := by
  simp [Option.isSome_iff_ne_none, Ne, lookup_eq_none_iff]

theorem mem_of_lookup_eq_some {α : Type} {l : List (String × α)} {k : String}
    {v : α} (h : l.lookup k = some v) : (k, v) ∈ l := by
  induction l with
  | nil => simp [List.lookup] at h
  | cons p rest ih =>
      obtain ⟨k', w⟩ := p
      by_cases hk : k = k'
      · subst hk
        simp [List.lookup] at h
        simp [h]
      · simp [List.lookup, beq_false_of_ne hk] at h
        simp [ih h]

theorem lookup_eq_some_of_mem {α : Type} {l : List (String × α)} {k : String}
    {v : α} (hnd : (l.map Prod.fst).Nodup) (h : (k, v) ∈ l) :
    l.lookup k = some v := by
  induction l with
  | nil => simp at h
  | cons p rest ih =>
      obtain ⟨k', w⟩ := p
      simp only [List.map_cons, List.nodup_cons] at hnd
      rw [List.mem_cons] at h
      rcases h with h | h
      · rw [Prod.mk.injEq] at h
        obtain ⟨h1, h2⟩ := h
        subst h1; subst h2
        simp [List.lookup]
      · have hne : k ≠ k' := by
          rintro rfl
          exact hnd.1 (List.mem_map_of_mem Prod.fst h)
        simp [List.lookup, beq_false_of_ne hne, ih hnd.2 h]

theorem dictInsert_keys_mem {α : Type} (l : List (String × α)) (k k' : String)
    (v : α) :
    k' ∈ (dictInsert l k v).map Prod.fst ↔ k' ∈ l.map Prod.fst ∨ k' = k := by
  induction l with
  | nil => simp [dictInsert]
  | cons p rest ih =>
      obtain ⟨l1, w⟩ := p
      by_cases h : l1 = k
      · subst h
        simp [dictInsert]
        tauto
      · simp [dictInsert, h, ih]
        tauto

theorem dictInsert_keys_nodup {α : Type} (l : List (String × α)) (k : String)
    (v : α) (hnd : (l.map Prod.fst).Nodup) :
    ((dictInsert l k v).map Prod.fst).Nodup := by
  induction l with
  | nil => simp [dictInsert]
  | cons p rest ih =>
      obtain ⟨l1, w⟩ := p
      simp only [List.map_cons, List.nodup_cons] at hnd
      by_cases h : l1 = k
      · subst h
        simpa [dictInsert] using hnd
      · simp only [dictInsert, if_neg h, List.map_cons, List.nodup_cons]
        refine ⟨?_, ih hnd.2⟩
        rw [dictInsert_keys_mem]
        rintro (hm | hm)
        · exact hnd.1 hm
        · exact h hm

theorem foldl_dictInsert_keys_nodup {α : Type} (items : List (String × α)) :
    ∀ acc : List (String × α), (acc.map Prod.fst).Nodup →
      ((items.foldl (fun acc p => dictInsert acc p.1 p.2) acc).map Prod.fst).Nodup := by
  induction items with
  | nil => intro acc h; simpa using h
  | cons p rest ih =>
      intro acc h
      simpa using ih (dictInsert acc p.1 p.2) (dictInsert_keys_nodup acc p.1 p.2 h)

theorem foldl_dictInsert_keys_mem {α : Type} (items : List (String × α)) :
    ∀ (acc : List (String × α)) (k : String),
      k ∈ ((items.foldl (fun acc p => dictInsert acc p.1 p.2) acc).map Prod.fst) ↔
        k ∈ acc.map Prod.fst ∨ k ∈ items.map Prod.fst := by
  induction items with
  | nil => intro acc k; simp
  | cons p rest ih =>
      intro acc k
      simp only [List.foldl_cons, List.map_cons, List.mem_cons]
      rw [ih, dictInsert_keys_mem]
      tauto

/-- Python `dict(items)` has duplicate-free keys. -/
theorem toDict_keys_nodup {α : Type} (items : List (String × α)) :
    ((toDict items).map Prod.fst).Nodup :=
  foldl_dictInsert_keys_nodup items [] (by simp)

/-- Python `dict(items)` has exactly the keys of `items`. -/
theorem mem_toDict_keys {α : Type} (items : List (String × α)) (k : String) :
    k ∈ (toDict items).map Prod.fst ↔ k ∈ items.map Prod.fst := by
  rw [toDict, foldl_dictInsert_keys_mem]
  simp

/-- The flat field map of a record has duplicate-free canonical paths. -/
theorem flattenDict_keys_nodup (entries : List (String × J)) (parent : String) :
    ((flattenDict entries parent).map Prod.fst).Nodup :=
  toDict_keys_nodup _

/-! ## Field-classification lemmas -/

theorem buildPresent_ok {orc : String → String → Bool}
    {fgt fext : List (String × J)} {rs : List (String × FieldResult)}
    (h : buildPresent orc fgt fext = .ok rs) :
    rs.map Prod.fst = fgt.map Prod.fst ∧
      ∀ p ∈ rs, p.2.category = Cat.present := by
  induction fgt generalizing rs with
  | nil =>
      simp [buildPresent] at h
      subst h
      simp
  | cons p rest ih =>
      obtain ⟨field, tv⟩ := p
      cases hl : fext.lookup field with
      | some ev =>
          cases hc : compareValues orc tv ev with
          | error e => simp [buildPresent, hl, hc] at h
          | ok mv =>
              cases hr : buildPresent orc rest fext with
              | error e => simp [buildPresent, hl, hc, hr] at h
              | ok rs' =>
                  simp [buildPresent, hl, hc, hr] at h
                  subst h
                  obtain ⟨ih1, ih2⟩ := ih hr
                  refine ⟨by simp [ih1], ?_⟩
                  intro q hq
                  rw [List.mem_cons] at hq
                  rcases hq with hq | hq
                  · subst hq; rfl
                  · exact ih2 q hq
      | none =>
          cases hr : buildPresent orc rest fext with
          | error e => simp [buildPresent, hl, hr] at h
          | ok rs' =>
              simp [buildPresent, hl, hr] at h
              subst h
              obtain ⟨ih1, ih2⟩ := ih hr
              refine ⟨by simp [ih1], ?_⟩
              intro q hq
              rw [List.mem_cons] at hq
              rcases hq with hq | hq
              · subst hq; rfl
              · exact ih2 q hq

theorem buildExtra_keys (fext fgt : List (String × J)) :
    (buildExtra fext fgt).map Prod.fst =
      (fext.map Prod.fst).filter (fun k => (fgt.lookup k).isNone) := by
  induction fext with
  | nil => simp [buildExtra]
  | cons p rest ih =>
      obtain ⟨field, v⟩ := p
      simp only [buildExtra, List.filterMap_cons] at ih ⊢
      cases hl : fgt.lookup field with
      | some w =>
          simp only [hl, Option.isSome_some, if_pos rfl, List.map_cons,
            List.filter_cons, Option.isNone_some, Bool.false_eq_true,
            if_neg (by simp : ¬False)]
          simpa using ih
      | none =>
          by_cases hm : pyEqStr MISSING_FIELD v = true
          · simp only [hl, Option.isSome_none, Bool.false_eq_true, if_neg (by simp : ¬False),
              if_pos hm, List.map_cons, List.filter_cons, Option.isNone_none, if_pos rfl]
            simpa [hm] using ih
          · simp only [hl, Option.isSome_none, Bool.false_eq_true, if_neg (by simp : ¬False),
              if_neg hm, List.map_cons, List.filter_cons, Option.isNone_none, if_pos rfl]
            simpa using ih

theorem buildExtra_mem {fext fgt : List (String × J)}
    {q : String × FieldResult} (h : q ∈ buildExtra fext fgt) :
    fgt.lookup q.1 = none ∧
      (q.2.category = Cat.missing ∨ q.2.category = Cat.extra) := by
  rw [buildExtra, List.mem_filterMap] at h
  obtain ⟨a, _, hfa⟩ := h
  cases hl : fgt.lookup a.1 with
  | some w => simp [hl] at hfa
  | none =>
      by_cases hm : pyEqStr MISSING_FIELD a.2 = true
      · simp only [hl, Option.isSome_none, Bool.false_eq_true, if_neg (by simp : ¬False),
          if_pos hm, Option.some.injEq] at hfa
        subst hfa
        simp [hl]
      · simp only [hl, Option.isSome_none, Bool.false_eq_true, if_neg (by simp : ¬False),
          if_neg hm, Option.some.injEq] at hfa
        subst hfa
        simp [hl]

theorem evaluateData_ok {orc : String → String → Bool}
    {gt ext : List (String × J)} {m : List String} {ev : Evaluation}
    (h : evaluateData orc gt ext m = .ok ev) :
    ∃ rs1,
      buildPresent orc (flattenDict gt "") (flattenDict ext "") = .ok rs1 ∧
        ev.field_results = rs1 ++ buildExtra (flattenDict ext "") (flattenDict gt "") ∧
        ev.metrics = calculateMetrics ev.field_results m ∧
        ev.missing_fields = m := by
  unfold evaluateData at h
  cases hbp : buildPresent orc (flattenDict gt "") (flattenDict ext "") with
  | error e => exact absurd h (by simp [hbp])
  | ok rs1 =>
      simp only [hbp, Except.ok.injEq] at h
      subst h
      exact ⟨rs1, rfl, rfl, rfl, rfl⟩

theorem evaluateData_eq_ok {orc : String → String → Bool}
    {gt ext : List (String × J)} {m : List String}
    {rs1 : List (String × FieldResult)}
    (hbp : buildPresent orc (flattenDict gt "") (flattenDict ext "") = .ok rs1) :
    evaluateData orc gt ext m =
      .ok { metrics := calculateMetrics
              (rs1 ++ buildExtra (flattenDict ext "") (flattenDict gt "")) m
            field_results :=
              rs1 ++ buildExtra (flattenDict ext "") (flattenDict gt "")
            missing_fields := m } := by
  unfold evaluateData
  simp only [hbp]

/-! ## Claim theorems -/

/-- C1: whenever `_evaluate_data` returns an evaluation, its
`field_results` mapping has exactly one entry per canonical path in the
union of the two flattened field maps (keys are duplicate-free and range
over exactly that union), every result carries exactly one category of
`{present, extra, missing}` (the type `Cat`), every ground-truth path is
categorised `present`, and every extracted-only path is categorised
`missing` or `extra`. -/
theorem evaluateData_partitions_paths (orc : String → String → Bool)
    (gt ext : List (String × J)) (m : List String) (ev : Evaluation)
    (h : evaluateData orc gt ext m = .ok ev) :
    ((ev.field_results.map Prod.fst).Nodup) ∧
      (∀ p : String,
        p ∈ ev.field_results.map Prod.fst ↔
          p ∈ (flattenDict gt "").map Prod.fst ∨
            p ∈ (flattenDict ext "").map Prod.fst) ∧
      (∀ p r, (p, r) ∈ ev.field_results →
        (p ∈ (flattenDict gt "").map Prod.fst → r.category = Cat.present) ∧
          (p ∉ (flattenDict gt "").map Prod.fst →
            r.category = Cat.missing ∨ r.category = Cat.extra)) := by
  obtain ⟨rs1, hbp, hfr, -, -⟩ := evaluateData_ok h
  obtain ⟨hkeys, hpres⟩ := buildPresent_ok hbp
  have nfgt := flattenDict_keys_nodup gt ""
  have nfext := flattenDict_keys_nodup ext ""
  have beKeys := buildExtra_keys (flattenDict ext "") (flattenDict gt "")
  have isNone_iff : ∀ k : String,
      ((flattenDict gt "").lookup k).isNone = true ↔
        k ∉ (flattenDict gt "").map Prod.fst := by
    intro k
    rw [Option.isNone_iff_eq_none, lookup_eq_none_iff]
  refine ⟨?_, ?_, ?_⟩
  · rw [hfr, List.map_append]
    refine List.Nodup.append (hkeys ▸ nfgt) (beKeys ▸ nfext.filter _) ?_
    intro k hk1 hk2
    rw [hkeys] at hk1
    rw [beKeys, List.mem_filter] at hk2
    exact (isNone_iff k).mp hk2.2 hk1
  · intro p
    rw [hfr, List.map_append, List.mem_append, hkeys, beKeys, List.mem_filter]
    constructor
    · rintro (hp | ⟨hp, -⟩)
      · exact Or.inl hp
      · exact Or.inr hp
    · rintro (hp | hp)
      · exact Or.inl hp
      · by_cases hq : p ∈ (flattenDict gt "").map Prod.fst
        · exact Or.inl hq
        · exact Or.inr ⟨hp, (isNone_iff p).mpr hq⟩
  · intro p r hpr
    rw [hfr, List.mem_append] at hpr
    rcases hpr with hpr | hpr
    · refine ⟨fun _ => hpres _ hpr, fun hnp => ?_⟩
      exact absurd (hkeys ▸ List.mem_map_of_mem Prod.fst hpr) hnp
    · obtain ⟨hnone, hcat⟩ := buildExtra_mem hpr
      refine ⟨fun hp => ?_, fun _ => hcat⟩
      exact absurd hp ((lookup_eq_none_iff _ _).mp hnone)

/-- Witness for C1 at the concrete instance `c1ev`. -/
theorem evaluateData_partitions_paths_witness :
    ((c1ev.field_results.map Prod.fst).Nodup) ∧
      ("b" ∈ c1ev.field_results.map Prod.fst ↔
        "b" ∈ (flattenDict [("a", J.str "x")] "").map Prod.fst ∨
          "b" ∈ (flattenDict [("a", J.str "x"), ("b", J.str MISSING_FIELD)] "").map Prod.fst) := by
  have hfgt : flattenDict [("a", J.str "x")] "" = [("a", J.str "x")] := by
    simp [flattenDict, flattenItems, toDict, dictInsert, newKey]
  have hfext : flattenDict [("a", J.str "x"), ("b", J.str MISSING_FIELD)] ""
      = [("a", J.str "x"), ("b", J.str MISSING_FIELD)] := by
    simp [flattenDict, flattenItems, toDict, dictInsert, newKey, MISSING_FIELD]
  have hbp : buildPresent (fun _ _ => false) (flattenDict [("a", J.str "x")] "")
      (flattenDict [("a", J.str "x"), ("b", J.str MISSING_FIELD)] "") =
      .ok [("a", ⟨J.str "x", J.str "x", true, .present, none⟩)] := by
    rw [hfgt, hfext]
    simp +decide [buildPresent, compareValues, pyIn, containsSub, J.isNull,
      List.lookup, MISSING_FIELD]
  have hbe : buildExtra [("a", J.str "x"), ("b", J.str MISSING_FIELD)]
      [("a", J.str "x")] =
      [("b", ⟨J.str MISSING_FIELD, J.str MISSING_FIELD, true, .missing, none⟩)] := by
    simp +decide [buildExtra, pyEqStr, List.lookup, MISSING_FIELD]
  have hev : evaluateData (fun _ _ => false) [("a", J.str "x")]
      [("a", J.str "x"), ("b", J.str MISSING_FIELD)] [] = .ok c1ev := by
    rw [evaluateData_eq_ok hbp, hfgt, hfext, hbe]
    simp only [c1ev, c1results, List.cons_append, List.nil_append]
  have H := evaluateData_partitions_paths (fun _ _ => false) [("a", J.str "x")]
      [("a", J.str "x"), ("b", J.str MISSING_FIELD)] [] c1ev hev
  exact ⟨H.1, H.2.1 "b"⟩

theorem foldl_countStep (frs : List (String × FieldResult)) : ∀ c : Counters,
    (frs.foldl (fun c p => countStep c p.2) c).tp
        = c.tp + frs.countP (fun p => tpPred p.2) ∧
      (frs.foldl (fun c p => countStep c p.2) c).fp
        = c.fp + frs.countP (fun p => fpPresentPred p.2)
            + frs.countP (fun p => decide (p.2.category = Cat.extra)) ∧
      (frs.foldl (fun c p => countStep c p.2) c).fn
        = c.fn + frs.countP (fun p => fnPred p.2) := by
  induction frs with
  | nil => intro c; simp
  | cons q rest ih =>
      intro c
      obtain ⟨ih1, ih2, ih3⟩ := ih (countStep c q.2)
      simp only [List.foldl_cons, List.countP_cons] at ih1 ih2 ih3 ⊢
      rw [ih1, ih2, ih3]
      rcases hcat : q.2.category with _ | _ | _ <;>
        by_cases herr : q.2.error = some "missing_field" <;>
          by_cases hmat : q.2.matched = true <;>
            simp [countStep, hcat, herr, hmat, tpPred, fpPresentPred, fnPred] <;>
              omega

/-- C2: `_calculate_metrics` counts false positives as the
present-category mismatches without a `missing_field` tag plus all
extra-category results; its ratios follow the claimed formulas with a
zero default on zero denominators; and an empty field-result mapping
scores all four ratios as 0 (no exception is modelled anywhere in
`calculateMetrics`: it is a total function). -/
theorem calculateMetrics_counts_and_ratios
    (frs : List (String × FieldResult)) (m : List String) :
    (calculateMetrics frs m).true_positives = frs.countP (fun p => tpPred p.2) ∧
      (calculateMetrics frs m).false_negatives = frs.countP (fun p => fnPred p.2) ∧
      (calculateMetrics frs m).false_positives =
        frs.countP (fun p => fpPresentPred p.2)
          + frs.countP (fun p => decide (p.2.category = Cat.extra)) ∧
      (calculateMetrics frs m).precision =
        (if 0 < (calculateMetrics frs m).true_positives + (calculateMetrics frs m).false_positives
         then ((calculateMetrics frs m).true_positives : ℚ) /
            (((calculateMetrics frs m).true_positives : ℚ) + ((calculateMetrics frs m).false_positives : ℚ))
         else 0) ∧
      (calculateMetrics frs m).recall_val =
        (if 0 < (calculateMetrics frs m).true_positives + (calculateMetrics frs m).false_negatives
         then ((calculateMetrics frs m).true_positives : ℚ) /
            (((calculateMetrics frs m).true_positives : ℚ) + ((calculateMetrics frs m).false_negatives : ℚ))
         else 0) ∧
      (calculateMetrics frs m).f1_score =
        (if 0 < (calculateMetrics frs m).precision + (calculateMetrics frs m).recall_val
         then 2 * ((calculateMetrics frs m).precision * (calculateMetrics frs m).recall_val) /
            ((calculateMetrics frs m).precision + (calculateMetrics frs m).recall_val)
         else 0) ∧
      (calculateMetrics frs m).overall_accuracy =
        (if 0 < (calculateMetrics frs m).true_positives + (calculateMetrics frs m).false_positives
              + (calculateMetrics frs m).false_negatives
         then ((calculateMetrics frs m).true_positives : ℚ) /
            (((calculateMetrics frs m).true_positives : ℚ) + ((calculateMetrics frs m).false_positives : ℚ)
              + ((calculateMetrics frs m).false_negatives : ℚ))
         else 0) ∧
      ((calculateMetrics [] m).precision = 0 ∧ (calculateMetrics [] m).recall_val = 0 ∧
        (calculateMetrics [] m).f1_score = 0 ∧ (calculateMetrics [] m).overall_accuracy = 0) := by
  obtain ⟨h1, h2, h3⟩ := foldl_countStep frs counters0
  refine ⟨?_, ?_, ?_, ?_, ?_, ?_, ?_, ?_⟩
  · simpa [calculateMetrics, counters0] using h1
  · simpa [calculateMetrics, counters0] using h3
  · simpa [calculateMetrics, counters0] using h2
  · simp [calculateMetrics]
  · simp [calculateMetrics]
  · simp [calculateMetrics]
  · simp [calculateMetrics]
  · simp [calculateMetrics, counters0, countStep]

theorem pyEqStr_iff (n : String) (v : J) : pyEqStr n v = true ↔ v = J.str n := by
  cases v with
  | str s => simp [pyEqStr]; exact eq_comm
  | _ => simp [pyEqStr]

theorem lookup_append_of_not_mem_keys {α : Type} {l1 : List (String × α)}
    (l2 : List (String × α)) {k : String} (h : k ∉ l1.map Prod.fst) :
    (l1 ++ l2).lookup k = l2.lookup k := by
  induction l1 with
  | nil => simp
  | cons p rest ih =>
      obtain ⟨k', v⟩ := p
      simp only [List.map_cons, List.mem_cons] at h
      push_neg at h
      simp only [List.cons_append, List.lookup, beq_false_of_ne h.1]
      exact ih h.2

/-- C3 (code bug in `_compare_values`): comparing two numbers — or any
non-`None`, non-string operand — raises `TypeError`, because the source
applies `MISSING_FIELD in value` to the raw value instead of its string
coercion; the claim's no-raise guarantee fails.  The null and marker
tiers behave as claimed. -/
theorem compareValues_typeError_on_numbers (orc : String → String → Bool) :
    compareValues orc (J.num 5) (J.num 5) = .error PyErr.typeError ∧
      compareValues orc (J.num 5) (J.str "5") = .error PyErr.typeError ∧
      compareValues orc (J.b true) (J.str "x") = .error PyErr.typeError ∧
      compareValues orc J.null J.null = .ok true ∧
      compareValues orc J.null (J.num 5) = .ok false ∧
      compareValues orc (J.str MISSING_FIELD) (J.str MISSING_FIELD) = .ok true ∧
      compareValues orc (J.str MISSING_FIELD) (J.str "123 Main St") = .ok false := by
  refine ⟨?_, ?_, ?_, ?_, ?_, ?_, ?_⟩ <;>
    simp +decide [compareValues, pyIn, J.isNull, containsSub, MISSING_FIELD]

/-- C4 counterexample: the extracted-only value `MISSING_FIELD ++ "x"`
*contains* the marker as a substring, yet the reconciler classifies it
`extra` with `match = false` and the `extra_field` tag (the source tests
equality with the marker, not substring containment). -/
theorem extractedOnly_substring_marker_is_extra :
    containsSub MISSING_FIELD (MISSING_FIELD ++ "x") = true ∧
      evaluateData (fun _ _ => false) [] [("a", J.str (MISSING_FIELD ++ "x"))] [] =
        .ok { metrics := calculateMetrics
                [("a", ⟨J.null, J.str (MISSING_FIELD ++ "x"), false, Cat.extra,
                  some "extra_field"⟩)] []
              field_results :=
                [("a", ⟨J.null, J.str (MISSING_FIELD ++ "x"), false, Cat.extra,
                  some "extra_field"⟩)]
              missing_fields := [] } := by
  constructor
  · decide
  · have hfgt : flattenDict [] "" = ([] : List (String × J)) := by
      simp [flattenDict, flattenItems, toDict]
    have hfext : flattenDict [("a", J.str (MISSING_FIELD ++ "x"))] ""
        = [("a", J.str (MISSING_FIELD ++ "x"))] := by
      simp [flattenDict, flattenItems, toDict, dictInsert, newKey]
    have hbp : buildPresent (fun _ _ => false) (flattenDict [] "")
        (flattenDict [("a", J.str (MISSING_FIELD ++ "x"))] "") = .ok [] := by
      rw [hfgt]
      simp [buildPresent]
    have hbe : buildExtra [("a", J.str (MISSING_FIELD ++ "x"))]
        ([] : List (String × J)) =
        [("a", ⟨J.null, J.str (MISSING_FIELD ++ "x"), false, Cat.extra,
          some "extra_field"⟩)] := by
      simp +decide [buildExtra, pyEqStr, List.lookup, MISSING_FIELD]
    rw [evaluateData_eq_ok hbp, hfgt, hfext, hbe]
    simp only [List.nil_append]

/-- C4 (amended): an extracted-only canonical path is classified by
*equality* with the marker: when its value equals `MISSING_FIELD` the
result is `missing`/`match = true` with the marker recorded as ground
truth, and otherwise — even when the value merely contains the marker as
a substring — the result is `extra`/`match = false` with error tag
`extra_field`. -/
theorem extractedOnly_classified_by_equality (orc : String → String → Bool)
    (gt ext : List (String × J)) (m : List String) (ev : Evaluation)
    (field : String) (v : J)
    (h : evaluateData orc gt ext m = .ok ev)
    (hnot : field ∉ (flattenDict gt "").map Prod.fst)
    (hv : (flattenDict ext "").lookup field = some v) :
    (v = J.str MISSING_FIELD →
      ev.field_results.lookup field =
        some ⟨J.str MISSING_FIELD, v, true, Cat.missing, none⟩) ∧
      (v ≠ J.str MISSING_FIELD →
        ev.field_results.lookup field =
          some ⟨J.null, v, false, Cat.extra, some "extra_field"⟩) := by
  obtain ⟨rs1, hbp, hfr, -, -⟩ := evaluateData_ok h
  obtain ⟨hkeys, -⟩ := buildPresent_ok hbp
  have hrs1 : field ∉ rs1.map Prod.fst := hkeys ▸ hnot
  have hgtnone : (flattenDict gt "").lookup field = none :=
    (lookup_eq_none_iff _ _).mpr hnot
  have hmem : (field, v) ∈ flattenDict ext "" := mem_of_lookup_eq_some hv
  have benodup :
      ((buildExtra (flattenDict ext "") (flattenDict gt "")).map Prod.fst).Nodup := by
    rw [buildExtra_keys]
    exact (flattenDict_keys_nodup ext "").filter _
  rw [hfr]
  constructor
  · intro hveq
    rw [lookup_append_of_not_mem_keys _ hrs1]
    apply lookup_eq_some_of_mem benodup
    rw [buildExtra, List.mem_filterMap]
    refine ⟨(field, v), hmem, ?_⟩
    simp [hgtnone, (pyEqStr_iff _ _).mpr hveq]
  · intro hvne
    rw [lookup_append_of_not_mem_keys _ hrs1]
    apply lookup_eq_some_of_mem benodup
    rw [buildExtra, List.mem_filterMap]
    refine ⟨(field, v), hmem, ?_⟩
    have : pyEqStr MISSING_FIELD v = false := by
      rw [Bool.eq_false_iff]
      intro hc
      exact hvne ((pyEqStr_iff _ _).mp hc)
    simp [hgtnone, this]

/-- Witness for the amended C4 at a concrete instance: the marker-valued
extracted-only field is `missing`, the other extracted-only field is
`extra`. -/
theorem extractedOnly_classified_by_equality_witness :
    c4ev.field_results.lookup "a" =
        some ⟨J.str MISSING_FIELD, J.str MISSING_FIELD, true, Cat.missing, none⟩ ∧
      c4ev.field_results.lookup "b" =
        some ⟨J.null, J.num 3, false, Cat.extra, some "extra_field"⟩ := by
  have hfgt : flattenDict [] "" = ([] : List (String × J)) := by
    simp [flattenDict, flattenItems, toDict]
  have hfext : flattenDict [("a", J.str MISSING_FIELD), ("b", J.num 3)] ""
      = [("a", J.str MISSING_FIELD), ("b", J.num 3)] := by
    simp [flattenDict, flattenItems, toDict, dictInsert, newKey, MISSING_FIELD]
  have hbp : buildPresent (fun _ _ => false) (flattenDict [] "")
      (flattenDict [("a", J.str MISSING_FIELD), ("b", J.num 3)] "") = .ok [] := by
    rw [hfgt]
    simp [buildPresent]
  have hbe : buildExtra [("a", J.str MISSING_FIELD), ("b", J.num 3)]
      ([] : List (String × J)) = c4results := by
    simp +decide [buildExtra, pyEqStr, List.lookup, MISSING_FIELD, c4results]
  have hev : evaluateData (fun _ _ => false) []
      [("a", J.str MISSING_FIELD), ("b", J.num 3)] [] = .ok c4ev := by
    rw [evaluateData_eq_ok hbp, hfgt, hfext, hbe]
    simp only [c4ev, List.nil_append]
  constructor
  · exact (extractedOnly_classified_by_equality (fun _ _ => false) []
      [("a", J.str MISSING_FIELD), ("b", J.num 3)] [] c4ev "a" (J.str MISSING_FIELD)
      hev (by simp [flattenDict, flattenItems, toDict])
      (by simp +decide [flattenDict, flattenItems, toDict, dictInsert, newKey,
        List.lookup])).1 rfl
  · exact (extractedOnly_classified_by_equality (fun _ _ => false) []
      [("a", J.str MISSING_FIELD), ("b", J.num 3)] [] c4ev "b" (J.num 3)
      hev (by simp [flattenDict, flattenItems, toDict])
      (by simp +decide [flattenDict, flattenItems, toDict, dictInsert, newKey,
        List.lookup])).2 (by simp)

mutual

theorem fmfObj_noMarker : ∀ (entries : List (String × J)) (path : String)
    (ms : List String), noMarkerObj entries = true →
    fmfObj entries path ms = (entries, ms)
  | entries, path, ms => fun h => by
      rw [fmfObj, fmfEntries_noMarker entries path ms h]
      simp [delKeys]

theorem fmfArr_noMarker : ∀ (items : List J) (path : String)
    (ms : List String), noMarkerArr items = true →
    fmfArr items path ms = (items, ms)
  | items, path, ms => fun h => by
      rw [fmfArr, fmfList_noMarker items path 0 ms h]
      simp [deleteDesc]

theorem fmfEntries_noMarker : ∀ (entries : List (String × J)) (path : String)
    (ms : List String), noMarkerObj entries = true →
    fmfEntries entries path ms = (entries, ms, [])
  | [], path, ms => fun _ => by rw [fmfEntries]
  | (k, v) :: rest, path, ms => fun h => by
      rw [noMarkerObj, Bool.and_eq_true] at h
      obtain ⟨hv, hrest⟩ := h
      cases v with
      | obj e =>
          simp only [fmfEntries,
            fmfObj_noMarker e (newKey path k) ms (by simpa [noMarkerJ] using hv),
            fmfEntries_noMarker rest path ms hrest]
      | arr l =>
          simp only [fmfEntries,
            fmfArr_noMarker l (newKey path k) ms (by simpa [noMarkerJ] using hv),
            fmfEntries_noMarker rest path ms hrest]
      | null =>
          simp only [noMarkerJ, Bool.not_eq_true'] at hv
          simp only [fmfEntries, hv, Bool.false_eq_true, if_neg (by simp : ¬False),
            fmfEntries_noMarker rest path ms hrest]
      | b x =>
          simp only [noMarkerJ, Bool.not_eq_true'] at hv
          simp only [fmfEntries, hv, Bool.false_eq_true, if_neg (by simp : ¬False),
            fmfEntries_noMarker rest path ms hrest]
      | num x =>
          simp only [noMarkerJ, Bool.not_eq_true'] at hv
          simp only [fmfEntries, hv, Bool.false_eq_true, if_neg (by simp : ¬False),
            fmfEntries_noMarker rest path ms hrest]
      | str s =>
          simp only [noMarkerJ, Bool.not_eq_true'] at hv
          simp only [fmfEntries, hv, Bool.false_eq_true, if_neg (by simp : ¬False),
            fmfEntries_noMarker rest path ms hrest]

theorem fmfList_noMarker : ∀ (items : List J) (path : String) (i : Nat)
    (ms : List String), noMarkerArr items = true →
    fmfList items path i ms = (items, ms, [])
  | [], path, i, ms => fun _ => by rw [fmfList]
  | item :: rest, path, i, ms => fun h => by
      rw [noMarkerArr, Bool.and_eq_true] at h
      obtain ⟨hv, hrest⟩ := h
      cases item with
      | obj e =>
          simp only [fmfList,
            fmfObj_noMarker e (idxKey path i) ms (by simpa [noMarkerJ] using hv),
            fmfList_noMarker rest path (i + 1) ms hrest]
      | arr l =>
          simp only [fmfList,
            fmfArr_noMarker l (idxKey path i) ms (by simpa [noMarkerJ] using hv),
            fmfList_noMarker rest path (i + 1) ms hrest]
      | null =>
          simp only [noMarkerJ, Bool.not_eq_true'] at hv
          simp only [fmfList, hv, Bool.false_eq_true, if_neg (by simp : ¬False),
            fmfList_noMarker rest path (i + 1) ms hrest]
      | b x =>
          simp only [noMarkerJ, Bool.not_eq_true'] at hv
          simp only [fmfList, hv, Bool.false_eq_true, if_neg (by simp : ¬False),
            fmfList_noMarker rest path (i + 1) ms hrest]
      | num x =>
          simp only [noMarkerJ, Bool.not_eq_true'] at hv
          simp only [fmfList, hv, Bool.false_eq_true, if_neg (by simp : ¬False),
            fmfList_noMarker rest path (i + 1) ms hrest]
      | str s =>
          simp only [noMarkerJ, Bool.not_eq_true'] at hv
          simp only [fmfList, hv, Bool.false_eq_true, if_neg (by simp : ¬False),
            fmfList_noMarker rest path (i + 1) ms hrest]

end

/-- The stripper `_find_missing_fields` leaves a marker-free value untouched and
records nothing. -/
theorem fmfJ_noMarker (d : J) (path : String) (ms : List String)
    (h : noMarkerJ d = true) : fmfJ d path ms = (d, ms) := by
  cases d with
  | obj entries => rw [fmfJ, fmfObj_noMarker entries path ms (by simpa [noMarkerJ] using h)]
  | arr items => rw [fmfJ, fmfArr_noMarker items path ms (by simpa [noMarkerJ] using h)]
  | null => simp [fmfJ]
  | b x => simp [fmfJ]
  | num x => simp [fmfJ]
  | str s => simp [fmfJ]

/-- C5 counterexample: called the way `Evaluator.generate` calls it
(`missing_fields=[]`, not `None`), `_find_missing_fields` makes no deep
copy and strips the caller's record in place — after the call the
caller's variable holds `{}`, not the original `{"a": MISSING_FIELD}`. -/
theorem stripper_mutates_caller_record :
    (findMissingFieldsCall (J.obj [("a", J.str MISSING_FIELD)]) (some [])).2.2
        = J.obj [] ∧
      J.obj [] ≠ J.obj [("a", J.str MISSING_FIELD)] := by
  constructor
  · simp +decide [findMissingFieldsCall, fmfJ, fmfObj, fmfEntries, pyEqStr,
      newKey, MISSING_FIELD, delKeys, delKey]
  · simp

/-- C5 (amended): the stripper deep-copies — leaving the caller's record
untouched — only when no `missing_fields` accumulator is passed; it also
leaves the record unchanged whenever the record is marker-free.  But when
a list is passed, as `Evaluator.generate` does, the caller's variable
afterwards holds the stripped (in-place mutated) record. -/
theorem stripper_copy_semantics (d : J) (ms : List String)
    (h : noMarkerJ d = true) :
    (findMissingFieldsCall d none).2.2 = d ∧
      (findMissingFieldsCall d (some ms)).2.2 = d ∧
      (∀ (e : J) (ms' : List String),
        (findMissingFieldsCall e (some ms')).2.2 = (fmfJ e "" ms').1) := by
  refine ⟨rfl, ?_, fun e ms' => rfl⟩
  simp [findMissingFieldsCall, fmfJ_noMarker d "" ms h]

/-- Witness for the amended C5 on the marker-free record `{"a": 1}`. -/
theorem stripper_copy_semantics_witness :
    noMarkerJ (J.obj [("a", J.num 1)]) = true ∧
      (findMissingFieldsCall (J.obj [("a", J.num 1)]) (some [])).2.2
        = J.obj [("a", J.num 1)] := by
  have h : noMarkerJ (J.obj [("a", J.num 1)]) = true := by
    simp [noMarkerJ, noMarkerObj, pyEqStr]
  exact ⟨h, (stripper_copy_semantics _ [] h).2.1⟩

theorem flattenItems_cons (k : String) (v : J) (rest : List (String × J))
    (parent : String) :
    flattenItems ((k, v) :: rest) parent =
      entryContrib v (newKey parent k) ++ flattenItems rest parent := by
  cases v <;> simp [flattenItems, entryContrib]

theorem flattenList_cons (item : J) (rest : List J) (nk : String) (i : Nat) :
    flattenList (item :: rest) nk i =
      listContrib item (idxKey nk i) ++ flattenList rest nk (i + 1) := by
  cases item <;> simp [flattenList, listContrib]

theorem flattenList_get (l : List J) : ∀ (i j : Nat) (nk : String) (item : J),
    l.get? j = some item →
    listContrib item (idxKey nk (i + j)) ⊆ flattenList l nk i := by
  induction l with
  | nil => intro i j nk item h; simp at h
  | cons x rest ih =>
      intro i j nk item h
      cases j with
      | zero =>
          simp only [List.get?_cons_zero, Option.some.injEq] at h
          subst h
          rw [flattenList_cons, Nat.add_zero]
          exact List.subset_append_left _ _
      | succ j' =>
          simp only [List.get?_cons_succ] at h
          rw [flattenList_cons]
          have := ih (i + 1) j' nk item h
          rw [show i + 1 + j' = i + (j' + 1) by omega] at this
          exact this.trans (List.subset_append_right _ _)

theorem flattenItems_get (entries : List (String × J)) :
    ∀ (j : Nat) (parent k : String) (v : J),
    entries.get? j = some (k, v) →
    entryContrib v (newKey parent k) ⊆ flattenItems entries parent := by
  induction entries with
  | nil => intro j parent k v h; simp at h
  | cons p rest ih =>
      intro j parent k v h
      cases j with
      | zero =>
          simp only [List.get?_cons_zero, Option.some.injEq] at h
          subst h
          rw [flattenItems_cons]
          exact List.subset_append_left _ _
      | succ j' =>
          simp only [List.get?_cons_succ] at h
          obtain ⟨k0, v0⟩ := p
          rw [flattenItems_cons]
          exact (ih j' parent k v h).trans (List.subset_append_right _ _)

/-- C6 counterexample: a sequence nested directly inside a sequence is
*not* recursed into — `{"a": [[1]]}` flattens to a single entry whose
value is the whole inner list `[1]` at path `a[0]`, and no path
`a[0][0]` exists. -/
theorem flatten_nested_sequence_is_leaf :
    flattenDict [("a", J.arr [J.arr [J.num 1]])] "" = [("a[0]", J.arr [J.num 1])] ∧
      (flattenDict [("a", J.arr [J.arr [J.num 1]])] "").lookup "a[0][0]" = none := by
  have h : flattenDict [("a", J.arr [J.arr [J.num 1]])] ""
      = [("a[0]", J.arr [J.num 1])] := by
    simp +decide [flattenDict, flattenItems, flattenList, toDict, dictInsert,
      newKey, idxKey]
  refine ⟨h, ?_⟩
  rw [h]
  simp +decide [List.lookup]

/-- C6 (amended): the flattener's path grammar, positionally: the dict
entry `(k, v)` at any position contributes its recursion under
`parent.key` (`newKey`); inside a sequence, the element at 0-based index
`j` contributes under `nk[j]` (`idxKey`), recursing when it is a map and
recorded as a single leaf otherwise — including when it is itself a
nested sequence, which is *not* recursed into. -/
theorem flatten_positional_grammar :
    (∀ (entries : List (String × J)) (j : Nat) (parent k : String) (v : J),
        entries.get? j = some (k, v) →
        entryContrib v (newKey parent k) ⊆ flattenItems entries parent) ∧
      (∀ (l : List J) (j : Nat) (nk : String) (item : J), l.get? j = some item →
        (∀ e, item = J.obj e → flattenItems e (idxKey nk j) ⊆ flattenList l nk 0) ∧
          ((∀ e, item ≠ J.obj e) → (idxKey nk j, item) ∈ flattenList l nk 0)) := by
  constructor
  · exact fun entries j parent k v h => flattenItems_get entries j parent k v h
  · intro l j nk item h
    have h0 := flattenList_get l 0 j nk item h
    rw [Nat.zero_add] at h0
    constructor
    · intro e he
      subst he
      simpa [listContrib] using h0
    · intro hne
      apply h0
      cases item with
      | obj e => exact absurd rfl (hne e)
      | null => simp [listContrib]
      | b x => simp [listContrib]
      | num x => simp [listContrib]
      | str s => simp [listContrib]
      | arr l' => simp [listContrib]

/-- Witness for the amended C6: the nested map `{"a": {"b": 1}}` yields
the leaf `a.b`, and in the list `[7, [8]]` under path `p` the nested
list is the single leaf at `p[1]`. -/
theorem flatten_positional_grammar_witness :
    ("a.b", J.num 1) ∈ flattenItems [("a", J.obj [("b", J.num 1)])] "" ∧
      (idxKey "p" 1, J.arr [J.num 8]) ∈ flattenList [J.num 7, J.arr [J.num 8]] "p" 0 := by
  constructor
  · apply flatten_positional_grammar.1 [("a", J.obj [("b", J.num 1)])] 0 "" "a"
      (J.obj [("b", J.num 1)]) rfl
    simp +decide [entryContrib, flattenItems, newKey]
  · exact (flatten_positional_grammar.2 [J.num 7, J.arr [J.num 8]] 1 "p"
      (J.arr [J.num 8]) rfl).2 (by simp)

theorem aggStep_foldl (convs : List (Except Unit (List (String × ℚ)))) :
    ∀ (n : Nat) (s : MSums),
    convs.foldl aggStep (n, s) =
      (n + (loadedNonempty convs).length,
       ⟨s.overall_accuracy
          + ((loadedNonempty convs).map (fun m => getQ m "overall_accuracy")).sum,
        s.precision + ((loadedNonempty convs).map (fun m => getQ m "precision")).sum,
        s.recall_val + ((loadedNonempty convs).map (fun m => getQ m "recall")).sum,
        s.f1_score + ((loadedNonempty convs).map (fun m => getQ m "f1_score")).sum⟩) := by
  induction convs with
  | nil => intro n s; simp [loadedNonempty]
  | cons c rest ih =>
      intro n s
      rw [List.foldl_cons]
      cases c with
      | error e =>
          have h1 : loadedNonempty (Except.error e :: rest) = loadedNonempty rest := by
            simp [loadedNonempty]
          rw [h1, show aggStep (n, s) (Except.error e) = (n, s) from rfl, ih n s]
      | ok m =>
          by_cases hm : m.isEmpty = true
          · have h1 : loadedNonempty (Except.ok m :: rest) = loadedNonempty rest := by
              simp [loadedNonempty, List.isEmpty_iff.mp hm]
            have h2 : aggStep (n, s) (Except.ok m) = (n, s) := by simp [aggStep, hm]
            rw [h1, h2, ih n s]
          · have hm' : m ≠ [] := by simpa [List.isEmpty_iff] using hm
            have h1 : loadedNonempty (Except.ok m :: rest) = m :: loadedNonempty rest := by
              simp [loadedNonempty, hm']
            have h2 : aggStep (n, s) (Except.ok m) =
                (n + 1, ⟨s.overall_accuracy + getQ m "overall_accuracy",
                  s.precision + getQ m "precision",
                  s.recall_val + getQ m "recall",
                  s.f1_score + getQ m "f1_score"⟩) := by simp [aggStep, hm]
            rw [h1, h2, ih (n + 1) _]
            simp only [List.length_cons, List.map_cons, List.sum_cons, Prod.mk.injEq,
              MSums.mk.injEq]
            refine ⟨by omega, by ring, by ring, by ring, by ring⟩

/-- C7 counterexample: one conversation whose evaluation file loads
*successfully* but with an empty metrics mapping is not counted —
`total_conversations` is 0, not the claimed N = 1 successfully-loaded
runs. -/
theorem aggregate_empty_metrics_run_uncounted :
    (aggregate [Except.ok ([] : List (String × ℚ))]).map AggResult.total_conversations
        = some 0 ∧
      aggregate ([] : List (Except Unit (List (String × ℚ)))) = none := by
  constructor
  · rfl
  · rfl

/-- C7 (amended): the aggregator skips runs whose metrics could not be
loaded *and* runs whose loaded metrics mapping is empty; for the N runs
that loaded with a non-empty mapping it reports `total_conversations = N`
and, when `N > 0`, the arithmetic mean of each of the four metric keys
computed independently over those N runs (a run missing a key
contributes 0 to that key's sum); when the conversation list itself is
empty it returns nothing at all (`None`), and when conversations exist
but N = 0 it reports zero conversations and an empty metrics mapping. -/
theorem aggregate_means_over_nonempty_loaded
    (convs : List (Except Unit (List (String × ℚ)))) (h : convs ≠ []) :
    aggregate convs = some
      { total_conversations := (loadedNonempty convs).length
        aggregated_metrics :=
          if 0 < (loadedNonempty convs).length then
            [("overall_accuracy",
                ((loadedNonempty convs).map (fun m => getQ m "overall_accuracy")).sum
                  / ((loadedNonempty convs).length : ℚ)),
             ("precision",
                ((loadedNonempty convs).map (fun m => getQ m "precision")).sum
                  / ((loadedNonempty convs).length : ℚ)),
             ("recall",
                ((loadedNonempty convs).map (fun m => getQ m "recall")).sum
                  / ((loadedNonempty convs).length : ℚ)),
             ("f1_score",
                ((loadedNonempty convs).map (fun m => getQ m "f1_score")).sum
                  / ((loadedNonempty convs).length : ℚ))]
          else [] } := by
  have hne : convs.isEmpty = false := by
    rw [List.isEmpty_eq_false_iff_exists_mem]
    cases convs with
    | nil => exact absurd rfl h
    | cons c rest => exact ⟨c, by simp⟩
  rw [aggregate]
  rw [if_neg (by simp [hne])]
  rw [aggStep_foldl convs 0 ⟨0, 0, 0, 0⟩]
  simp

/-- Witness for the amended C7: of three runs — one unloadable, one with
`{"precision": 1/2}`, one loading as an empty mapping — exactly one is
counted, and the four means are taken over that single run. -/
theorem aggregate_means_over_nonempty_loaded_witness :
    aggregate [Except.error (), Except.ok [("precision", (1 : ℚ)/2)],
        Except.ok ([] : List (String × ℚ))] =
      some { total_conversations := 1
             aggregated_metrics :=
               [("overall_accuracy", 0), ("precision", (1 : ℚ)/2),
                ("recall", 0), ("f1_score", 0)] } := by
  rw [aggregate_means_over_nonempty_loaded _ (by simp)]
  simp [loadedNonempty, getQ, List.lookup]

/-- C8: for non-null, marker-free string operands whose
lowercased/trimmed forms are unequal, a length gap above 20 or either
trimmed string shorter than 3 characters makes `_compare_values` return
no-match for *every* oracle — i.e. without the oracle's answer ever
influencing the result. -/
theorem compareValues_short_circuit (s1 s2 : String)
    (orc : String → String → Bool)
    (h1 : containsSub MISSING_FIELD s1 = false)
    (h2 : containsSub MISSING_FIELD s2 = false)
    (hne : pyLowerStrip s1 ≠ pyLowerStrip s2)
    (hlen : 20 < (((pyLowerStrip s1).length : Int)
          - ((pyLowerStrip s2).length : Int)).natAbs
        ∨ (pyLowerStrip s1).length < 3 ∨ (pyLowerStrip s2).length < 3) :
    compareValues orc (J.str s1) (J.str s2) = .ok false := by
  have hcond : 20 < (((pyLowerStrip s1).length : Int)
        - ((pyLowerStrip s2).length : Int)).natAbs
      ∨ min (pyLowerStrip s1).length (pyLowerStrip s2).length < 3 := by
    rcases hlen with h | h | h
    · exact Or.inl h
    · exact Or.inr (min_lt_iff.mpr (Or.inl h))
    · exact Or.inr (min_lt_iff.mpr (Or.inr h))
  have hsm : semanticMatch orc (pyLowerStrip s1) (pyLowerStrip s2) = false := by
    rw [semanticMatch, if_pos hcond]
  simp [compareValues, J.isNull, pyIn, h1, h2, pyStr, if_neg hne, hsm]

/-- Witness for C8: `compare("ab", "cd") = false` even under an oracle
that answers yes to everything. -/
theorem compareValues_short_circuit_witness :
    compareValues (fun _ _ => true) (J.str "ab") (J.str "cd") = .ok false :=
  compareValues_short_circuit "ab" "cd" (fun _ _ => true)
    (by decide) (by decide) (by decide) (Or.inr (Or.inl (by decide)))

theorem enumFrom_marker_positions (xs : List J) : ∀ i : Nat,
    ((List.enumFrom i xs).filter (fun p => pyEqStr MISSING_FIELD p.2)).map Prod.fst
      = (markerPos xs).map (· + i) := by
  induction xs with
  | nil => intro i; simp [markerPos]
  | cons x rest ih =>
      intro i
      have hcomp : ∀ Q : List Nat, (Q.map (· + 1)).map (· + i) = Q.map (· + (i + 1)) := by
        intro Q
        rw [List.map_map]
        apply List.map_congr_left
        intro a _
        simp only [Function.comp_apply]
        omega
      by_cases hx : pyEqStr MISSING_FIELD x = true
      · have hmp : markerPos (x :: rest) = 0 :: (markerPos rest).map (· + 1) := by
          simp [markerPos, hx]
        rw [hmp, show List.enumFrom i (x :: rest) = (i, x) :: List.enumFrom (i + 1) rest
          from rfl]
        rw [List.filter_cons_of_pos (by simpa using hx)]
        rw [List.map_cons, ih (i + 1), List.map_cons, hcomp]
        simp
      · have hmp : markerPos (x :: rest) = (markerPos rest).map (· + 1) := by
          simp [markerPos, hx]
        rw [hmp, show List.enumFrom i (x :: rest) = (i, x) :: List.enumFrom (i + 1) rest
          from rfl]
        rw [List.filter_cons_of_neg (by simpa using hx)]
        rw [ih (i + 1), hcomp]

theorem enum_marker_positions (xs : List J) :
    ((List.enum xs).filter (fun p => pyEqStr MISSING_FIELD p.2)).map Prod.fst
      = markerPos xs := by
  have h := enumFrom_marker_positions xs 0
  simpa using h

theorem foldl_eraseIdx_shift (idxs : List Nat) : ∀ (l : List J) (x : J),
    List.foldl (fun acc i => acc.eraseIdx i) (x :: l) (idxs.map (· + 1))
      = x :: List.foldl (fun acc i => acc.eraseIdx i) l idxs := by
  induction idxs with
  | nil => intro l x; simp
  | cons i is ih =>
      intro l x
      simp only [List.map_cons, List.foldl_cons, List.eraseIdx_cons_succ]
      exact ih (l.eraseIdx i) x

theorem deleteDesc_markerPos (xs : List J) :
    deleteDesc xs (markerPos xs)
      = xs.filter (fun x => !(pyEqStr MISSING_FIELD x)) := by
  induction xs with
  | nil => simp [deleteDesc, markerPos]
  | cons x rest ih =>
      by_cases hx : pyEqStr MISSING_FIELD x = true
      · have hmp : markerPos (x :: rest) = 0 :: (markerPos rest).map (· + 1) := by
          simp [markerPos, hx]
        rw [hmp, deleteDesc, List.reverse_cons, ← List.map_reverse,
          List.foldl_append, foldl_eraseIdx_shift]
        simp only [List.foldl_cons, List.foldl_nil, List.eraseIdx_cons_zero]
        rw [List.filter_cons_of_neg (by simp [hx])]
        exact ih
      · have hmp : markerPos (x :: rest) = (markerPos rest).map (· + 1) := by
          simp [markerPos, hx]
        rw [hmp, deleteDesc, ← List.map_reverse, foldl_eraseIdx_shift]
        rw [List.filter_cons_of_pos (by simp [hx])]
        exact congrArg (List.cons x) ih

theorem map_add_one_add (Q : List Nat) (i : Nat) :
    (Q.map (· + 1)).map (· + i) = Q.map (· + (i + 1)) := by
  rw [List.map_map]
  apply List.map_congr_left
  intro a _
  simp only [Function.comp_apply]
  omega

theorem fmfList_scalars (xs : List J) : ∀ (i : Nat) (path : String)
    (ms : List String), (∀ x ∈ xs, isScalarJ x = true) →
    fmfList xs path i ms =
      (xs, ms ++ ((markerPos xs).map (· + i)).map (idxKey path),
       (markerPos xs).map (· + i)) := by
  induction xs with
  | nil => intro i path ms _; simp [fmfList, markerPos]
  | cons x rest ih =>
      intro i path ms hall
      have hx := hall x (by simp)
      have hrest : ∀ y ∈ rest, isScalarJ y = true :=
        fun y hy => hall y (by simp [hy])
      have step : ∀ hm : pyEqStr MISSING_FIELD x = false,
          markerPos (x :: rest) = (markerPos rest).map (· + 1) :=
        fun hm => by simp [markerPos, hm]
      cases x with
      | obj e => simp [isScalarJ] at hx
      | arr l => simp [isScalarJ] at hx
      | null =>
          have hm : pyEqStr MISSING_FIELD J.null = false := by simp [pyEqStr]
          simp only [fmfList, hm, Bool.false_eq_true, if_neg (by simp : ¬False),
            ih (i + 1) path ms hrest, step hm, map_add_one_add]
      | b v =>
          have hm : pyEqStr MISSING_FIELD (J.b v) = false := by simp [pyEqStr]
          simp only [fmfList, hm, Bool.false_eq_true, if_neg (by simp : ¬False),
            ih (i + 1) path ms hrest, step hm, map_add_one_add]
      | num v =>
          have hm : pyEqStr MISSING_FIELD (J.num v) = false := by simp [pyEqStr]
          simp only [fmfList, hm, Bool.false_eq_true, if_neg (by simp : ¬False),
            ih (i + 1) path ms hrest, step hm, map_add_one_add]
      | str sv =>
          by_cases hm : pyEqStr MISSING_FIELD (J.str sv) = true
          · have hmp : markerPos (J.str sv :: rest)
                = 0 :: (markerPos rest).map (· + 1) := by simp [markerPos, hm]
            simp only [fmfList, hm, if_pos rfl,
              ih (i + 1) path (ms ++ [idxKey path i]) hrest, hmp, List.map_cons,
              map_add_one_add, Nat.zero_add, List.append_assoc,
              List.singleton_append, if_true]
          · have hm' : pyEqStr MISSING_FIELD (J.str sv) = false := by
              simpa using hm
            simp only [fmfList, hm', Bool.false_eq_true, if_neg (by simp : ¬False),
              ih (i + 1) path ms hrest, step hm', map_add_one_add]

/-- C9: stripping a record free of the marker returns it unchanged and
records no missing paths; and on a sequence of scalars the
descending-index deletion pass removes exactly the marker elements
(earlier deletions never invalidate the indices of elements deleted later
in the same pass), while every recorded path carries the element's
original, pre-deletion 0-based index. -/
theorem strip_noMarker_identity_and_sequence_deletion :
    (∀ (d : J) (path : String) (ms : List String), noMarkerJ d = true →
        fmfJ d path ms = (d, ms)) ∧
      (∀ (xs : List J) (path : String) (ms : List String),
        (∀ x ∈ xs, isScalarJ x = true) →
        fmfJ (J.arr xs) path ms =
          (J.arr (xs.filter (fun x => !(pyEqStr MISSING_FIELD x))),
            ms ++ (((List.enum xs).filter
                (fun p => pyEqStr MISSING_FIELD p.2)).map Prod.fst).map
              (idxKey path))) := by
  constructor
  · exact fmfJ_noMarker
  · intro xs path ms hall
    have hz : (markerPos xs).map (· + 0) = markerPos xs := by simp
    rw [fmfJ, fmfArr, fmfList_scalars xs 0 path ms hall]
    simp only [hz, deleteDesc_markerPos, enum_marker_positions]

/-- Witness for C9: a marker-free record survives stripping unchanged,
and `[MARKER, 1, MARKER]` under path `l` strips to `[1]` with recorded
pre-deletion paths `l[0]` and `l[2]`. -/
theorem strip_identity_and_deletion_witness :
    (noMarkerJ (J.obj [("name", J.str "Jane")]) = true ∧
      fmfJ (J.obj [("name", J.str "Jane")]) "" []
        = (J.obj [("name", J.str "Jane")], [])) ∧
      fmfJ (J.arr [J.str MISSING_FIELD, J.num 1, J.str MISSING_FIELD]) "l" [] =
        (J.arr [J.num 1], ["l[0]", "l[2]"]) := by
  have h1 : noMarkerJ (J.obj [("name", J.str "Jane")]) = true := by
    simp +decide [noMarkerJ, noMarkerObj, pyEqStr]
  have h2 : ∀ x ∈ [J.str MISSING_FIELD, J.num 1, J.str MISSING_FIELD],
      isScalarJ x = true := by
    intro x hx
    simp only [List.mem_cons, List.not_mem_nil, or_false] at hx
    rcases hx with h | h | h
    all_goals subst h
    all_goals rfl
  refine ⟨⟨h1, strip_noMarker_identity_and_sequence_deletion.1 _ "" [] h1⟩, ?_⟩
  rw [strip_noMarker_identity_and_sequence_deletion.2
    [J.str MISSING_FIELD, J.num 1, J.str MISSING_FIELD] "l" [] h2]
  simp +decide [pyEqStr, idxKey, MISSING_FIELD, List.enum, List.enumFrom]

theorem flattenItems_append (a b : List (String × J)) (parent : String) :
    flattenItems (a ++ b) parent = flattenItems a parent ++ flattenItems b parent := by
  induction a with
  | nil => simp [flattenItems]
  | cons p rest ih =>
      obtain ⟨k, v⟩ := p
      rw [List.cons_append, flattenItems_cons, flattenItems_cons, ih,
        List.append_assoc]

/-- C10: an empty map or empty sequence value vanishes from the flat
field map — flattening a record with such an entry (at any position)
equals flattening the record without it — and consequently, whether it
occurs in the ground truth or in the extracted record, the evaluation
(field results and all metric counts alike) is identical to the
evaluation without that field. -/
theorem empty_containers_vanish (pre post : List (String × J)) (k : String)
    (parent : String) :
    (flattenItems (pre ++ (k, J.arr []) :: post) parent
        = flattenItems (pre ++ post) parent) ∧
      (flattenItems (pre ++ (k, J.obj []) :: post) parent
        = flattenItems (pre ++ post) parent) ∧
      (∀ (orc : String → String → Bool) (other : List (String × J))
          (m : List String),
        evaluateData orc (pre ++ (k, J.arr []) :: post) other m
            = evaluateData orc (pre ++ post) other m ∧
          evaluateData orc (pre ++ (k, J.obj []) :: post) other m
            = evaluateData orc (pre ++ post) other m ∧
          evaluateData orc other (pre ++ (k, J.arr []) :: post) m
            = evaluateData orc other (pre ++ post) m ∧
          evaluateData orc other (pre ++ (k, J.obj []) :: post) m
            = evaluateData orc other (pre ++ post) m) := by
  have harr : ∀ par : String, flattenItems (pre ++ (k, J.arr []) :: post) par
      = flattenItems (pre ++ post) par := by
    intro par
    rw [flattenItems_append, flattenItems_cons, flattenItems_append]
    simp [entryContrib, flattenList]
  have hobj : ∀ par : String, flattenItems (pre ++ (k, J.obj []) :: post) par
      = flattenItems (pre ++ post) par := by
    intro par
    rw [flattenItems_append, flattenItems_cons, flattenItems_append]
    simp [entryContrib, flattenItems]
  have hfdarr : flattenDict (pre ++ (k, J.arr []) :: post) ""
      = flattenDict (pre ++ post) "" := by rw [flattenDict, harr, flattenDict]
  have hfdobj : flattenDict (pre ++ (k, J.obj []) :: post) ""
      = flattenDict (pre ++ post) "" := by rw [flattenDict, hobj, flattenDict]
  refine ⟨harr parent, hobj parent, ?_⟩
  intro orc other m
  refine ⟨?_, ?_, ?_, ?_⟩ <;> simp only [evaluateData, hfdarr, hfdobj]
